import Mathlib

/-!
Shallow embedding of the region and filter engine of the kabasset/KRaster
repository (Linx / Litl), together with theorems checking the specification
claims against it.

Each definition is translated from the C++ source file named in its doc
comment. Parts of the repository whose sources are absent (Box.h,
GridIterator.h, Patch) are modelled from the specification and marked as such.
-/

namespace Linx

/-- Integer position of dimension n, as Linx::Position of Index coordinates. -/
abbrev Pos (n : ℕ) := Fin n → ℤ

/-- Componentwise sum of two positions. -/
def Pos.add {n : ℕ} (p q : Pos n) : Pos n := fun i => p i + q i

/-- The zero position. -/
def Pos.zero (n : ℕ) : Pos n := fun _ => 0

/-!
Filter kernels, from Linx/Transforms/Filters.h.
A kernel consumes the list of neighbor values gathered over its window.
-/

/-- Value semantics of std::min_element: the least element of a nonempty
range (the call is undefined on an empty range, modelled as none). -/
def minElement {α : Type*} [LinearOrder α] : List α → Option α
  | [] => none
  | x :: xs => some (xs.foldl min x)

/-- Value semantics of std::max_element: the greatest element of a nonempty
range (undefined on an empty range, modelled as none). -/
def maxElement {α : Type*} [LinearOrder α] : List α → Option α
  | [] => none
  | x :: xs => some (xs.foldl max x)

/-- MinimumFilter::operator() from Filters.h: the minimum of the neighbors. -/
def MinimumFilter.apply {α : Type*} [LinearOrder α] (neighbors : List α) : Option α :=
  minElement neighbors

/-- MaximumFilter::operator() from Filters.h: the maximum of the neighbors. -/
def MaximumFilter.apply {α : Type*} [LinearOrder α] (neighbors : List α) : Option α :=
  maxElement neighbors

/-- BinaryErosion::operator()(neighbors) from Filters.h: std::all_of. -/
def BinaryErosion.apply (neighbors : List Bool) : Bool :=
  neighbors.all id

/-- BinaryDilation::operator()(neighbors) from Filters.h: std::any_of. -/
def BinaryDilation.apply (neighbors : List Bool) : Bool :=
  neighbors.any id

/-- Modelled from the spec: a patch is a view of an input raster over a window
region (Patch sources are absent from src); its state is the list of window
positions, which translation shifts as front and back of a region shift. -/
structure Patch (n : ℕ) where
  window : List (Pos n)

/-- Patch translation, operator>>= : shift every window position by a vector. -/
def Patch.shift {n : ℕ} (patch : Patch n) (v : Pos n) : Patch n :=
  ⟨patch.window.map (fun w => Pos.add w v)⟩

/-- Patch translation, operator<<= : shift every window position backwards. -/
def Patch.unshift {n : ℕ} (patch : Patch n) (v : Pos n) : Patch n :=
  ⟨patch.window.map (fun w => fun i => w i - v i)⟩

/-- The values a patch reads from the input, in window order. -/
def Patch.values {n : ℕ} (inp : Pos n → Bool) (patch : Patch n) : List Bool :=
  patch.window.map inp

/-- BinaryErosion::operator()(in, patch, pos) from Filters.h:
short-circuits to false when the center pixel is false; otherwise shifts the
patch to pos, evaluates, and shifts it back. Returns the output and the patch
state after the call. -/
def BinaryErosion.applyAt {n : ℕ} (inp : Pos n → Bool) (patch : Patch n) (pos : Pos n) :
    Bool × Patch n :=
  if !(inp pos) then (false, patch)
  else
    let shifted := patch.shift pos
    let out := BinaryErosion.apply (shifted.values inp)
    (out, shifted.unshift pos)

/-- BinaryDilation::operator()(in, patch, pos) from Filters.h:
short-circuits to true when the center pixel is true; otherwise shifts the
patch to pos, evaluates, and shifts it back. Returns the output and the patch
state after the call. -/
def BinaryDilation.applyAt {n : ℕ} (inp : Pos n → Bool) (patch : Patch n) (pos : Pos n) :
    Bool × Patch n :=
  if inp pos then (true, patch)
  else
    let shifted := patch.shift pos
    let out := BinaryDilation.apply (shifted.values inp)
    (out, shifted.unshift pos)

lemma bool_min_eq_and (a b : Bool) : min a b = (a && b) := by
  cases a <;> cases b <;> rfl

lemma bool_max_eq_or (a b : Bool) : max a b = (a || b) := by
  cases a <;> cases b <;> rfl

lemma foldl_min_bool (x : Bool) (xs : List Bool) :
    xs.foldl min x = (x :: xs).all id := by
  induction xs generalizing x with
  | nil => simp
  | cons y ys ih =>
    rw [List.foldl_cons, ih (min x y)]
    simp [bool_min_eq_and, Bool.and_assoc]

lemma foldl_max_bool (x : Bool) (xs : List Bool) :
    xs.foldl max x = (x :: xs).any id := by
  induction xs generalizing x with
  | nil => simp
  | cons y ys ih =>
    rw [List.foldl_cons, ih (max x y)]
    simp [bool_max_eq_or, Bool.or_assoc]

lemma minElement_eq_all (l : List Bool) (h : l ≠ []) :
    minElement l = some (l.all id) := by
  match l, h with
  | x :: xs, _ => simp only [minElement, foldl_min_bool]

lemma maxElement_eq_any (l : List Bool) (h : l ≠ []) :
    maxElement l = some (l.any id) := by
  match l, h with
  | x :: xs, _ => simp only [maxElement, foldl_max_bool]

lemma shift_zero_mem {n : ℕ} (patch : Patch n) (pos : Pos n)
    (hzero : Pos.zero n ∈ patch.window) : pos ∈ (patch.shift pos).window := by
  have : Pos.add (Pos.zero n) pos = pos := by
    funext i
    simp [Pos.add, Pos.zero]
  simpa [Patch.shift, this] using List.mem_map_of_mem (fun w => Pos.add w pos) hzero

lemma shift_unshift {n : ℕ} (patch : Patch n) (v : Pos n) :
    (patch.shift v).unshift v = patch := by
  cases patch with
  | mk window =>
    simp only [Patch.shift, Patch.unshift, List.map_map, Patch.mk.injEq]
    have h : ((fun w => fun i => w i - v i) ∘ fun w => Pos.add w v) = id := by
      funext w
      funext i
      simp [Pos.add]
    rw [h, List.map_id]

/-- Example input raster for dimension 1: true exactly at coordinate 1. -/
def exInp1 : Pos 1 → Bool := fun p => p 0 == 1

/-- Example window made of the single offset +1, without the origin. -/
def exPatch1 : Patch 1 := ⟨[fun _ => 1]⟩

/-- Example window containing the origin and the offset +1. -/
def exPatch2 : Patch 1 := ⟨[Pos.zero 1, fun _ => 1]⟩

/-- Example evaluation position: the origin. -/
def exPos1 : Pos 1 := fun _ => 0

/-- C1 counterexample: with the window made of the single offset +1 (origin not
in the window), an input that is false at the evaluated position and true at
its right neighbor, BinaryErosion short-circuits to false while MinimumFilter
over the same window returns true, so the claimed equality fails. -/
theorem binary_erosion_shortcircuit_counterexample :
    some (BinaryErosion.applyAt exInp1 exPatch1 exPos1).1 ≠
      MinimumFilter.apply ((exPatch1.shift exPos1).values exInp1) := by
  decide

/-- C1 (amended): for every boolean input, window and position, if the window
contains the origin offset then the BinaryErosion (resp. BinaryDilation)
output equals the MinimumFilter (resp. MaximumFilter) output over the same
shifted window, despite the short-circuit on the center pixel. -/
theorem binary_morphology_equals_extremum_filters {n : ℕ} (inp : Pos n → Bool)
    (patch : Patch n) (pos : Pos n) (hzero : Pos.zero n ∈ patch.window) :
    some (BinaryErosion.applyAt inp patch pos).1 =
      MinimumFilter.apply ((patch.shift pos).values inp) ∧
    some (BinaryDilation.applyAt inp patch pos).1 =
      MaximumFilter.apply ((patch.shift pos).values inp) := by
  have hmem : pos ∈ (patch.shift pos).window := shift_zero_mem patch pos hzero
  have hvmem : inp pos ∈ (patch.shift pos).values inp :=
    List.mem_map_of_mem inp hmem
  have hne : (patch.shift pos).values inp ≠ [] := by
    intro hnil
    rw [hnil] at hvmem
    exact absurd hvmem (List.not_mem_nil _)
  constructor
  · rw [MinimumFilter.apply, minElement_eq_all _ hne]
    cases hc : inp pos with
    | false =>
      simp only [BinaryErosion.applyAt, hc, Bool.not_false, if_pos, Option.some.injEq]
      rw [eq_comm, List.all_eq_false]
      exact ⟨inp pos, hvmem, by simp [hc]⟩
    | true =>
      simp [BinaryErosion.applyAt, hc, BinaryErosion.apply]
  · rw [MaximumFilter.apply, maxElement_eq_any _ hne]
    cases hc : inp pos with
    | true =>
      simp only [BinaryDilation.applyAt, hc, if_pos, Option.some.injEq]
      rw [eq_comm, List.any_eq_true]
      exact ⟨inp pos, hvmem, by simp [hc]⟩
    | false =>
      simp [BinaryDilation.applyAt, hc, BinaryDilation.apply]

/-- Witness for the amended C1 at a concrete window containing the origin. -/
theorem binary_morphology_equals_extremum_filters_witness :
    Pos.zero 1 ∈ exPatch2.window ∧
    (some (BinaryErosion.applyAt exInp1 exPatch2 exPos1).1 =
        MinimumFilter.apply ((exPatch2.shift exPos1).values exInp1) ∧
      some (BinaryDilation.applyAt exInp1 exPatch2 exPos1).1 =
        MaximumFilter.apply ((exPatch2.shift exPos1).values exInp1)) :=
  ⟨List.mem_cons_self _ _,
    binary_morphology_equals_extremum_filters exInp1 exPatch2 exPos1 (List.mem_cons_self _ _)⟩

/-- C10: the three-argument BinaryErosion and BinaryDilation operators leave
the patch translation state unchanged, on both the short-circuit branch (the
patch is never shifted) and the full-evaluation branch (it is shifted to the
position and shifted back by the same position). -/
theorem binary_morphology_restores_patch {n : ℕ} (inp : Pos n → Bool)
    (patch : Patch n) (pos : Pos n) :
    (BinaryErosion.applyAt inp patch pos).2 = patch ∧
    (BinaryDilation.applyAt inp patch pos).2 = patch := by
  cases hc : inp pos <;>
    simp [BinaryErosion.applyAt, BinaryDilation.applyAt, hc, shift_unshift]

/-- Value semantics of std::inner_product with init 0: the sum of the products
of the paired entries, consuming the whole first range. -/
def innerProduct (w v : List ℚ) : ℚ :=
  (List.zipWith (fun a b => a * b) w v).sum

/-- Correlation::operator() from Filters.h: inner product of the kernel
values (conjugation is the identity on real values) with the neighbors. -/
def Correlation.apply (w v : List ℚ) : ℚ :=
  innerProduct w v

/-- Convolution::operator() from Filters.h: inner product of the kernel values
iterated from rbegin to rend, that is reversed, with the neighbors. -/
def Convolution.apply (w v : List ℚ) : ℚ :=
  innerProduct w.reverse v

/-- C6: for every real weight sequence w and neighbor sequence v of the same
length, the Convolution kernel built from w evaluated on v equals the
Correlation kernel built from the reverse of w evaluated on v. -/
theorem convolution_eq_correlation_of_reversed (w v : List ℚ)
    (h : w.length = v.length) :
    Convolution.apply w v = Correlation.apply w.reverse v := rfl

/-- Witness for C6 at concrete weight and neighbor sequences. -/
theorem convolution_eq_correlation_of_reversed_witness :
    ([(1 : ℚ), 2]).length = ([(3 : ℚ), 4]).length ∧
    Convolution.apply [1, 2] [3, 4] = Correlation.apply ([(1 : ℚ), 2]).reverse [3, 4] :=
  ⟨rfl, convolution_eq_correlation_of_reversed [1, 2] [3, 4] rfl⟩

/-- Insertion of a value into an ascending sorted list. -/
def insertAsc (x : ℚ) : List ℚ → List ℚ
  | [] => [x]
  | y :: ys => if x ≤ y then x :: y :: ys else y :: insertAsc x ys

/-- Ascending insertion sort, used to denote order statistics:
std::nth_element(b, b + k, e) leaves at index k the rank-k element of the
range, i.e. the k-th entry of the sorted range. -/
def sortAsc (l : List ℚ) : List ℚ :=
  l.foldr insertAsc []

/-- MedianFilter::operator() from Filters.h: after nth_element selections, the
result is the order statistic of rank size/2 for odd sizes, and the average of
the order statistics of ranks size/2 and size/2 + 1 for even sizes (the
past-the-end read that rank size/2 + 1 performs when size = 2 is modelled by
the default value 0). -/
def MedianFilter.apply (v : List ℚ) : ℚ :=
  let s := sortAsc v
  let n := v.length / 2
  if v.length % 2 == 1 then s.getD n 0
  else (s.getD n 0 + s.getD (n + 1) 0) / 2

/-- Modelled from the spec: the middle order statistic for odd counts, and the
average of the two middle order statistics, of ranks size/2 - 1 and size/2,
for even counts. -/
def medianOfSpec (v : List ℚ) : ℚ :=
  let s := sortAsc v
  let n := v.length / 2
  if v.length % 2 == 1 then s.getD n 0
  else (s.getD (n - 1) 0 + s.getD n 0) / 2

/-- C7 failing evaluation: on the even-sized neighborhood [1, 2, 3, 4] the
code returns (3 + 4)/2 = 7/2, while the average of the two middle order
statistics, as the claim states, is (2 + 3)/2 = 5/2. -/
theorem median_filter_even_divergence :
    MedianFilter.apply [1, 2, 3, 4] = 7 / 2 ∧
    medianOfSpec [1, 2, 3, 4] = 5 / 2 ∧ (7 : ℚ) / 2 ≠ 5 / 2 := by
  refine ⟨by norm_num [MedianFilter.apply, sortAsc, insertAsc],
    by norm_num [medianOfSpec, sortAsc, insertAsc], by norm_num⟩

/-- An ND bounding box with inclusive front and back positions, as Linx::Box
(Box.h is absent from src; its contract is modelled from the spec). -/
structure Box (n : ℕ) where
  front : Pos n
  back : Pos n

/-- Box membership: every coordinate lies between front and back, inclusive. -/
def Box.containsb {n : ℕ} (b : Box n) (p : Pos n) : Bool :=
  decide (∀ i, b.front i ≤ p i ∧ p i ≤ b.back i)

/-- Modelled from the spec: box intersection (operator&=) clamps front to the
max of the fronts and back to the min of the backs, so that the result's
positions are exactly the intersection. -/
def Box.inter {n : ℕ} (b c : Box n) : Box n :=
  ⟨fun i => max (b.front i) (c.front i), fun i => min (b.back i) (c.back i)⟩

/-- Modelled from the spec: box translation (operator+=) shifts front and back
by the given vector. -/
def Box.translate {n : ℕ} (b : Box n) (v : Pos n) : Box n :=
  ⟨fun i => b.front i + v i, fun i => b.back i + v i⟩

/-- Modelled from the spec: box translation by the opposite vector
(operator-=). -/
def Box.untranslate {n : ℕ} (b : Box n) (v : Pos n) : Box n :=
  ⟨fun i => b.front i - v i, fun i => b.back i - v i⟩

/-- A masked ND bounding box, as Linx::Mask from Mask.h: a box plus a flag
raster in box-local coordinates (row-major storage is represented by the
position-indexed flag function). -/
structure Mask (n : ℕ) where
  box : Box n
  flags : Pos n → Bool

/-- Mask::operator[] from Mask.h: box containment, then flag lookup at the
position made local by subtracting the box front. -/
def Mask.get {n : ℕ} (m : Mask n) (p : Pos n) : Bool :=
  m.box.containsb p && m.flags (fun i => p i - m.box.front i)

/-- Mask::operator&= from Mask.h: intersect the box, then replace the flags by
a copy of the patch of the old flags over the new box expressed in the old
local coordinates (the copied entry at local position q comes from the old
entry at q plus the front shift). -/
def Mask.clamp {n : ℕ} (m : Mask n) (c : Box n) : Mask n :=
  let front := m.box.front
  let inter := m.box.inter c
  { box := inter, flags := fun q => m.flags (fun i => q i + (inter.front i - front i)) }

/-- Mask::operator+= from Mask.h: translate the box, leave the flags alone. -/
def Mask.translate {n : ℕ} (m : Mask n) (v : Pos n) : Mask n :=
  { box := m.box.translate v, flags := m.flags }

/-- Mask::operator-= from Mask.h: translate the box backwards, leave the
flags alone. -/
def Mask.untranslate {n : ℕ} (m : Mask n) (v : Pos n) : Mask n :=
  { box := m.box.untranslate v, flags := m.flags }

lemma inter_containsb {n : ℕ} (b c : Box n) (p : Pos n) :
    (b.inter c).containsb p = (b.containsb p && c.containsb p) := by
  simp only [Box.containsb, Box.inter, ← Bool.decide_and, decide_eq_decide]
  constructor
  · intro h
    exact ⟨fun i => ⟨(max_le_iff.mp (h i).1).1, (le_min_iff.mp (h i).2).1⟩,
      fun i => ⟨(max_le_iff.mp (h i).1).2, (le_min_iff.mp (h i).2).2⟩⟩
  · intro h i
    exact ⟨max_le (h.1 i).1 (h.2 i).1, le_min (h.1 i).2 (h.2 i).2⟩

/-- C5: clamping a mask to a box intersects the bounding boxes, and the
resulting flag lookup at any position is the conjunction of the original mask
lookup and containment in the clamping box. -/
theorem mask_clamp_matches_intersection {n : ℕ} (m : Mask n) (c : Box n) :
    (m.clamp c).box = m.box.inter c ∧
    ∀ p : Pos n, (m.clamp c).get p = (m.get p && c.containsb p) := by
  refine ⟨rfl, fun p => ?_⟩
  simp only [Mask.get, Mask.clamp, inter_containsb]
  have harg :
      (fun i => p i - (m.box.inter c).front i + ((m.box.inter c).front i - m.box.front i)) =
        (fun i => p i - m.box.front i) := by
    funext i
    ring
  rw [harg]
  cases m.box.containsb p <;> cases c.containsb p <;> simp

/-- C8: translating a mask shifts only the bounding box (front and back each
move by the vector) and leaves the flags unchanged, and translating by the
vector then by its opposite restores the original mask. -/
theorem mask_translate_round_trip {n : ℕ} (m : Mask n) (v : Pos n) :
    (m.translate v).box.front = (fun i => m.box.front i + v i) ∧
    (m.translate v).box.back = (fun i => m.box.back i + v i) ∧
    (m.translate v).flags = m.flags ∧
    (m.translate v).untranslate v = m := by
  refine ⟨rfl, rfl, rfl, ?_⟩
  cases m with
  | mk box flags =>
    cases box with
    | mk f b =>
      simp only [Mask.translate, Mask.untranslate, Box.translate, Box.untranslate,
        Mask.mk.injEq, Box.mk.injEq]
      refine ⟨⟨?_, ?_⟩, trivial⟩ <;> funext i <;> ring

/-- Linx::Affinity at the default dimension N = 2, from Affinity.h: a linear
map (a row-major 2 by 2 matrix), a translation vector and a fixed center, over
exact rationals standing for the real arithmetic. -/
structure Affinity where
  a00 : ℚ
  a01 : ℚ
  a10 : ℚ
  a11 : ℚ
  b0 : ℚ
  b1 : ℚ
  c0 : ℚ
  c1 : ℚ

/-- Affinity::operator()(in) from Affinity.h: translation + center + map times
(in - center). -/
def Affinity.applyVec (A : Affinity) (x0 x1 : ℚ) : ℚ × ℚ :=
  (A.b0 + A.c0 + (A.a00 * (x0 - A.c0) + A.a01 * (x1 - A.c1)),
    A.b1 + A.c1 + (A.a10 * (x0 - A.c0) + A.a11 * (x1 - A.c1)))

/-- Determinant of the linear map of an affinity. -/
def Affinity.det (A : Affinity) : ℚ :=
  A.a00 * A.a11 - A.a01 * A.a10

/-- Affinity::inverse() from Affinity.h: the map becomes its matrix inverse
(cofactors over the determinant, as the backend computes for 2 by 2 matrices),
the translation becomes minus the new map times the old translation, and the
center is untouched. -/
def Affinity.inv (A : Affinity) : Affinity :=
  let d := A.det
  let i00 := A.a11 / d
  let i01 := -A.a01 / d
  let i10 := -A.a10 / d
  let i11 := A.a00 / d
  { a00 := i00, a01 := i01, a10 := i10, a11 := i11,
    b0 := -(i00 * A.b0 + i01 * A.b1), b1 := -(i10 * A.b0 + i11 * A.b1),
    c0 := A.c0, c1 := A.c1 }

/-- C3: for every affinity with non-singular linear map and every point, the
inverse affinity applied after the affinity returns the point; the inverse has
the inverse matrix as its map (their product is the identity), the translation
minus that inverse map times the old translation, and the same center. -/
theorem affinity_inverse_round_trip (A : Affinity) (h : A.det ≠ 0) (x0 x1 : ℚ) :
    A.inv.applyVec (A.applyVec x0 x1).1 (A.applyVec x0 x1).2 = (x0, x1) ∧
    (A.inv.a00 * A.a00 + A.inv.a01 * A.a10 = 1 ∧
      A.inv.a00 * A.a01 + A.inv.a01 * A.a11 = 0 ∧
      A.inv.a10 * A.a00 + A.inv.a11 * A.a10 = 0 ∧
      A.inv.a10 * A.a01 + A.inv.a11 * A.a11 = 1) ∧
    (A.inv.b0 = -(A.inv.a00 * A.b0 + A.inv.a01 * A.b1) ∧
      A.inv.b1 = -(A.inv.a10 * A.b0 + A.inv.a11 * A.b1)) ∧
    A.inv.c0 = A.c0 ∧ A.inv.c1 = A.c1 := by
  have hd : A.a00 * A.a11 - A.a01 * A.a10 ≠ 0 := h
  refine ⟨?_, ⟨?_, ?_, ?_, ?_⟩, ⟨rfl, rfl⟩, rfl, rfl⟩
  · simp only [Affinity.applyVec, Affinity.inv, Affinity.det, Prod.mk.injEq]
    constructor <;> field_simp <;> ring
  all_goals
    simp only [Affinity.inv, Affinity.det]
    field_simp
    ring

/-- Example affinity: a shear with unit determinant, a nonzero translation and
a nonzero center. -/
def exAffinity : Affinity :=
  { a00 := 1, a01 := 1, a10 := 0, a11 := 1, b0 := 1, b1 := 2, c0 := 3, c1 := 4 }

/-- Witness for C3 at a concrete non-singular affinity and point. -/
theorem affinity_inverse_round_trip_witness :
    exAffinity.det ≠ 0 ∧
    (exAffinity.inv.applyVec (exAffinity.applyVec 5 6).1 (exAffinity.applyVec 5 6).2 = (5, 6) ∧
      (exAffinity.inv.a00 * exAffinity.a00 + exAffinity.inv.a01 * exAffinity.a10 = 1 ∧
        exAffinity.inv.a00 * exAffinity.a01 + exAffinity.inv.a01 * exAffinity.a11 = 0 ∧
        exAffinity.inv.a10 * exAffinity.a00 + exAffinity.inv.a11 * exAffinity.a10 = 0 ∧
        exAffinity.inv.a10 * exAffinity.a01 + exAffinity.inv.a11 * exAffinity.a11 = 1) ∧
      (exAffinity.inv.b0 = -(exAffinity.inv.a00 * exAffinity.b0 + exAffinity.inv.a01 * exAffinity.b1) ∧
        exAffinity.inv.b1 = -(exAffinity.inv.a10 * exAffinity.b0 + exAffinity.inv.a11 * exAffinity.b1)) ∧
      exAffinity.inv.c0 = exAffinity.c0 ∧ exAffinity.inv.c1 = exAffinity.c1) :=
  ⟨by norm_num [exAffinity, Affinity.det],
    affinity_inverse_round_trip exAffinity (by norm_num [exAffinity, Affinity.det]) 5 6⟩

/-- Truncation toward zero, the semantics of the C++ conversion from a
floating-point value to the integer coordinate type. -/
def truncQ (q : ℚ) : ℤ :=
  if 0 ≤ q then ⌊q⌋ else ⌈q⌉

/-- Rounding to the nearest integer with ties away from zero, as the spec
words the Nearest policy on fractional positions. -/
def roundAwayQ (q : ℚ) : ℤ :=
  if 0 ≤ q then ⌊q + 1 / 2⌋ else ⌈q - 1 / 2⌉

/-- Nearest::at(raster, position) on a fractional position, from
ResamplingMethods.h: each coordinate becomes e + 0.5 converted to Index, that
is truncated toward zero, and the raster is read there. -/
def Nearest.atFrac {n : ℕ} {α : Type*} (raster : Pos n → α) (v : Fin n → ℚ) : α :=
  raster (fun i => truncQ (v i + 1 / 2))

/-- Example 1-D raster reading off its own integer coordinate. -/
def exRaster1 : Pos 1 → ℤ := fun p => p 0

/-- Example fractional position with the negative coordinate -7/5. -/
def exFrac1 : Fin 1 → ℚ := fun _ => -7 / 5

/-- C4 counterexample: at coordinate -7/5, rounding to nearest with ties away
from zero gives -1, but the code computes trunc(-7/5 + 1/2) = trunc(-9/10) =
0, so the claimed lookup position differs. -/
theorem nearest_frac_counterexample :
    Nearest.atFrac exRaster1 exFrac1 ≠ exRaster1 (fun i => roundAwayQ (exFrac1 i)) := by
  have hcode : Nearest.atFrac exRaster1 exFrac1 = 0 := by
    simp only [Nearest.atFrac, exRaster1, exFrac1, truncQ]
    norm_num
  have hclaim : exRaster1 (fun i => roundAwayQ (exFrac1 i)) = -1 := by
    simp only [exRaster1, exFrac1, roundAwayQ]
    norm_num
    rw [Int.ceil_eq_iff]
    norm_num
  rw [hcode, hclaim]
  decide

/-- C4 (amended): on fractional positions whose coordinates are all
nonnegative, the Nearest policy returns the raster value at the position
obtained by rounding each coordinate to the nearest integer with ties away
from zero (which there coincides with adding 1/2 and truncating). -/
theorem nearest_frac_rounds_nonneg {n : ℕ} {α : Type*} (raster : Pos n → α)
    (v : Fin n → ℚ) (h : ∀ i, 0 ≤ v i) :
    Nearest.atFrac raster v = raster (fun i => roundAwayQ (v i)) := by
  simp only [Nearest.atFrac, roundAwayQ]
  congr 1
  funext i
  have h05 : (0 : ℚ) ≤ v i + 1 / 2 := by linarith [h i]
  rw [truncQ, if_pos h05, if_pos (h i)]

/-- Witness for the amended C4 at the nonnegative coordinate 3/2. -/
theorem nearest_frac_rounds_nonneg_witness :
    (∀ i : Fin 1, 0 ≤ (fun _ : Fin 1 => (3 : ℚ) / 2) i) ∧
    Nearest.atFrac exRaster1 (fun _ => 3 / 2) =
      exRaster1 (fun i => roundAwayQ ((fun _ : Fin 1 => (3 : ℚ) / 2) i)) :=
  ⟨fun _ => by norm_num,
    nearest_frac_rounds_nonneg exRaster1 (fun _ => 3 / 2) (fun _ => by norm_num)⟩

/-- Linear::at from ResamplingMethods.h, with the position coordinates
reversed so that the last axis, which the code interpolates first, comes
first, and the accumulated integer indices of the already-processed higher
axes as second argument. One axis takes the floor f of its coordinate, the
fractional part d, the values p and n at f and f + 1, and returns
d * (n - p) + p; the base case reads the raster at the assembled index. -/
def linearGo (r : List ℤ → ℚ) : List ℚ → List ℤ → ℚ
  | [], ix => r ix
  | [x], ix =>
    let f := ⌊x⌋
    let d := x - (f : ℚ)
    let p := r (f :: ix)
    let n := r ((f + 1) :: ix)
    d * (n - p) + p
  | x :: y :: xs, ix =>
    let f := ⌊x⌋
    let d := x - (f : ℚ)
    let p := linearGo r (y :: xs) (f :: ix)
    let n := linearGo r (y :: xs) ((f + 1) :: ix)
    d * (n - p) + p

/-- Linear interpolation at a fractional position, recursing from the last
axis inwards as the code does. -/
def linearAt (r : List ℤ → ℚ) (pos : List ℚ) : ℚ :=
  linearGo r pos.reverse []

/-- Coordinatewise embedding of an integer position into a fractional one. -/
def castList (zs : List ℤ) : List ℚ :=
  zs.map fun (z : ℤ) => (z : ℚ)

lemma castList_nil : castList [] = [] := rfl

lemma castList_cons (z : ℤ) (zs : List ℤ) :
    castList (z :: zs) = (z : ℚ) :: castList zs := rfl

lemma linearGo_intCast (r : List ℤ → ℚ) :
    ∀ (zs : List ℤ) (ix : List ℤ), linearGo r (castList zs) ix = r (zs.reverse ++ ix)
  | [], ix => by
    rw [castList_nil]
    simp [linearGo]
  | [z], ix => by
    rw [castList_cons, castList_nil]
    simp [linearGo, Int.floor_intCast]
  | z :: w :: ws, ix => by
    have ih := linearGo_intCast r (w :: ws)
    rw [castList_cons, castList_cons]
    simp only [linearGo, Int.floor_intCast, sub_self, zero_mul, zero_add]
    rw [← castList_cons, ih (z :: ix)]
    simp

/-- C9: at a position whose coordinates are all exact integers, the fractional
part is zero on every axis, the recursion collapses, and Linear interpolation
returns exactly the stored raster value at that integer position. -/
theorem linear_at_integer_position (r : List ℤ → ℚ) (zs : List ℤ) :
    linearAt r (castList zs) = r zs := by
  have hrev : (castList zs).reverse = castList zs.reverse := by
    unfold castList
    exact (List.map_reverse _ _).symm
  rw [linearAt, hrev, linearGo_intCast r zs.reverse, List.reverse_reverse, List.append_nil]

end Linx

namespace Litl

/-- An ND bounding box of the LitlRaster layer, with dynamic dimension:
coordinate lists for the inclusive front and back (Box.h of LitlRaster is
absent from src; its contract is modelled from the spec). -/
structure Box where
  front : List ℤ
  back : List ℤ

/-- Modelled from the spec: Box::length(i) is back[i] - front[i] + 1 (the
per-axis shape of the inclusive box). -/
def Box.length (b : Box) (i : ℕ) : ℤ :=
  b.back.getD i 0 - b.front.getD i 0 + 1

/-- The loop of the Grid constructor in Grid.h: each back coordinate is
reduced by (length(i) - 1) % step[i], with the C++ remainder (truncated
division), landing the back onto a step boundary. -/
def trimBack : List ℤ → List ℤ → List ℤ → List ℤ
  | bk :: bks, fr :: frs, s :: ss => (bk - (bk - fr).tmod s) :: trimBack bks frs ss
  | bks, _, _ => bks

/-- A grid of the LitlRaster layer: a bounding box plus a per-axis step,
as Litl::Grid from Grid.h. -/
structure Grid where
  box : Box
  step : List ℤ

/-- Grid::Grid(box, step) from Grid.h: store the step and the box with its
back trimmed onto a step boundary. -/
def mkGrid (box : Box) (step : List ℤ) : Grid :=
  ⟨⟨box.front, trimBack box.back box.front step⟩, step⟩

/-- Grid::length(i) from Grid.h: m_box.length(i) / m_step[i], with the C++
integer division (truncation). -/
def Grid.length (g : Grid) (i : ℕ) : ℤ :=
  (g.box.length i).tdiv (g.step.getD i 0)

/-- Grid::size() from Grid.h: the product of length(i) over all axes. -/
def Grid.size (g : Grid) : ℤ :=
  ((List.range g.box.front.length).map fun i => g.length i).prod

/-- Modelled from the spec: the positions of a one-dimensional grid are the
positions of its box congruent to the front modulo the step (GridIterator.h
is absent from src). -/
def axisNodes (front back step : ℤ) : List ℤ :=
  (((List.range (back - front + 1).toNat).map fun k => front + (k : ℤ)).filter
    fun p => (p - front).tmod step == 0)

/-- The position list of a one-dimensional grid. -/
def Grid.nodes1 (g : Grid) : List ℤ :=
  axisNodes (g.box.front.getD 0 0) (g.box.back.getD 0 0) (g.step.getD 0 0)

/-- C2 failing evaluation: for the one-dimensional box [0, 4] with step 2, the
grid holds exactly the congruent positions 0, 2, 4, which also matches
ceil(5/2) = 3 as the claim states, but Grid::size() returns
(trimmed length) / step = 5 / 2 = 2. -/
theorem grid_size_miscounts_nodes :
    (mkGrid ⟨[0], [4]⟩ [2]).nodes1 = [0, 2, 4] ∧
    ((mkGrid ⟨[0], [4]⟩ [2]).nodes1).length = 3 ∧
    ((5 : ℤ) + 2 - 1).tdiv 2 = 3 ∧
    (mkGrid ⟨[0], [4]⟩ [2]).size = 2 := by
  decide

end Litl
